import Mathlib

/-!
A formal model of the registration / ranking / export engine of the
snow-drift raffle application (src/try_2/src/main.rs).

Modelling conventions:
* Rust `i32` arithmetic is modelled on `Int` with explicit wrapping
  modulo `2 ^ 32` (release-mode semantics).
* The SQLite table `users` is modelled as the list of rows in ascending
  `id` order, exactly the view produced by
  `SELECT ... FROM users ORDER BY id` (`Database::get_all_users`).
  The primary-key invariant appears as the hypothesis that the `id`
  fields are strictly increasing along the list.
* Rust's `Vec::sort_by_key` / `Vec::sort_by` are stable sorts; a stable
  sort for a total preorder is extensionally unique, so they are
  modelled by `List.insertionSort` (also stable).
-/

/-- Two's-complement wrap of an integer into the `i32` range. -/
def i32wrap (x : Int) : Int := (x + 2 ^ 31) % 2 ^ 32 - 2 ^ 31

/-- Rust release-mode `i32` subtraction `a - b` (wrapping on overflow). -/
def i32sub (a b : Int) : Int := i32wrap (a - b)

/-- Rust release-mode `i32::abs` (wrapping: `i32::MIN.abs()` is `i32::MIN`). -/
def i32abs (x : Int) : Int := i32wrap x.natAbs

/-- The distance `(u.number - max_number).abs()` computed in
`Database::calculate_winners` and `Database::get_sorted_users`
(32-bit signed arithmetic). -/
def dist32 (number target : Int) : Int := i32abs (i32sub number target)

/-- `i32::cmp`: the total order comparison on 32-bit integers. -/
def intCmp (a b : Int) : Ordering :=
  if a < b then .lt else if a = b then .eq else .gt

/-- A row of the `users` table (struct `User` in the source). -/
structure User where
  id : Int
  first_name : String
  surname : String
  email : String
  number : Int
  winner : Bool
deriving DecidableEq, Repr

/-- `UPDATE users SET winner = 0` applied to one row. -/
def resetWinner (u : User) : User := { u with winner := false }

/-- `UPDATE users SET winner = 1 WHERE id = ?` for every id in `w`,
applied to one row. -/
def markIf (w : List Int) (u : User) : User :=
  if u.id ∈ w then { u with winner := true } else u

/-- The pair `(u.id, (u.number - max_number).abs())` built by
`calculate_winners` for each user. -/
def keyOf (t : Int) (u : User) : Int × Int := (u.id, dist32 u.number t)

/-- The comparison used by `users_with_distance.sort_by_key(|&(_, dist)| dist)`:
compare the distance components only. -/
def distLe (a b : Int × Int) : Prop := a.2 ≤ b.2

instance : DecidableRel distLe := fun a b => inferInstanceAs (Decidable (a.2 ≤ b.2))

/-- `Database::get_all_users`: the database state is kept in ascending-id
order, which is exactly what `SELECT ... ORDER BY id` returns. -/
def get_all_users (db : List User) : List User := db

/-- The ids marked as winners by `Database::calculate_winners`: stable-sort
the `(id, distance)` pairs by distance, take the first `len.min(5)`,
and keep their ids. -/
def winnerIds (db : List User) (t : Int) : List Int :=
  let uwd := db.map (keyOf t)
  ((List.insertionSort distLe uwd).take (min uwd.length 5)).map Prod.fst

/-- `Database::calculate_winners`: reset every `winner` flag, then (unless
the table is empty) set the flag on the `min(len, 5)` rows whose
`(number - max_number).abs()` is smallest (stable sort by distance). -/
def calculate_winners (db : List User) (t : Int) : List User :=
  let db0 := db.map resetWinner
  if db0.isEmpty then db0
  else db0.map (markIf (winnerIds db0 t))

/-- The comparator of `Database::get_sorted_users`:
`match (b.winner, a.winner) { (true,false) => Greater, (false,true) => Less,
_ => dist_a.cmp(&dist_b) }`. -/
def cmpUser (t : Int) (a b : User) : Ordering :=
  match b.winner, a.winner with
  | true, false => .gt
  | false, true => .lt
  | true, true => intCmp (dist32 a.number t) (dist32 b.number t)
  | false, false => intCmp (dist32 a.number t) (dist32 b.number t)

/-- The (total pre-)order induced by the comparator of `get_sorted_users`:
`a` may come before `b` iff the comparator does not answer `Greater`. -/
def sortLe (t : Int) (a b : User) : Prop := cmpUser t a b ≠ .gt

instance (t : Int) : DecidableRel (sortLe t) :=
  fun a b => inferInstanceAs (Decidable (cmpUser t a b ≠ .gt))

/-- `Database::get_sorted_users`: stable sort of the id-ordered table by
the winners-first / distance-ascending comparator. -/
def get_sorted_users (db : List User) (t : Int) : List User :=
  List.insertionSort (sortLe t) db

/-! ### Validation layer and registration (Submit button handler in `MyApp::update`) -/

/-- The error taxonomy of the validation layer (§7 of the specification);
in the source the three cases surface as the messages
"Please fill all fields!", "Invalid number format!" and "Number must be >= 1". -/
inductive ValidationError where
  | MissingField
  | NotANumber
  | OutOfRange
deriving DecidableEq, Repr

/-- Value of a list of decimal digit characters, most significant first. -/
def digitsVal (l : List Char) : Nat :=
  l.foldl (fun acc c => 10 * acc + (c.toNat - 48)) 0

/-- Rust `str::parse::<i32>`: an optional single `+`/`-` sign followed by at
least one ASCII digit; the value must fit in the `i32` range, otherwise the
parse fails (`PosOverflow` / `NegOverflow` are errors, exactly like a
malformed string). -/
def parseI32 (s : String) : Option Int :=
  let l := s.data
  let sign : Int := if l.head? = some '-' then -1 else 1
  let ds : List Char :=
    if l.head? = some '-' ∨ l.head? = some '+' then l.tail else l
  if ds.isEmpty then none
  else if ds.all Char.isDigit then
    let v : Int := sign * (digitsVal ds : Int)
    if -(2 ^ 31) ≤ v ∧ v ≤ 2 ^ 31 - 1 then some v else none
  else none

/-- The validation performed by the Submit button handler, in source order:
any empty field fails first, then a failed `parse::<i32>()`, then the
range check `num >= 1`. -/
def validate (fn sn em numText : String) : Except ValidationError Int :=
  if fn.isEmpty || sn.isEmpty || em.isEmpty || numText.isEmpty then
    .error .MissingField
  else
    match parseI32 numText with
    | some n => if n ≥ 1 then .ok n else .error .OutOfRange
    | none => .error .NotANumber

/-- The `INTEGER PRIMARY KEY` id SQLite assigns to a fresh row:
one more than the largest id in the table (`1` for an empty table). -/
def nextId (db : List User) : Int :=
  (db.foldl (fun m u => max m u.id) 0) + 1

/-- `Database::insert_user`: append a new row with `winner = 0` and an
auto-assigned id. -/
def insert_user (db : List User) (fn sn em : String) (n : Int) : List User :=
  db ++ [{ id := nextId db, first_name := fn, surname := sn, email := em,
           number := n, winner := false }]

/-- `submit_registration` (§6): validation followed, on success, by
`Database::insert_user`; on failure the table is untouched. -/
def submit_registration (db : List User) (fn sn em numText : String) :
    List User × Except ValidationError Unit :=
  match validate fn sn em numText with
  | .ok n => (insert_user db fn sn em n, .ok ())
  | .error e => (db, .error e)

/-! ### Export formatter (`MyApp::export_to_excel`) -/

/-- The fixed header row of the exported sheet. -/
def headerRow : List String :=
  ["ID", "First Name", "Surname", "Email", "Number", "Winner"]

/-- The data row written for one user: id, names, email, number, and the
`winner` flag rendered as `YES` / `NO`. -/
def userRow (u : User) : List String :=
  [toString u.id, u.first_name, u.surname, u.email, toString u.number,
   if u.winner then "YES" else "NO"]

/-- The table produced by `MyApp::export_to_excel` from the rows of
`get_all_users`: an error on an empty table, otherwise the header row
followed by one row per user in the supplied order. -/
def export_to_excel (users : List User) : Except String (List (List String)) :=
  if users.isEmpty then .error "No data to export!"
  else .ok (headerRow :: users.map userRow)

/-- The output filename `registrations_{timestamp}.xlsx`, where `ts` is the
Unix time in whole seconds at the moment of the export. -/
def export_filename (ts : Nat) : String :=
  "registrations_" ++ toString ts ++ ".xlsx"

/-! ### Specification-side orderings

The specification prescribes the explicit deterministic tie-break
"distance ascending, then id ascending"; the following definitions state
that ordering directly, to be compared with the stable sorts of the code. -/

/-- Lexicographic order on `(id, distance)` pairs prescribed by the
specification: distance ascending, id ascending on ties. -/
def pairLexLe (a b : Int × Int) : Prop :=
  a.2 < b.2 ∨ (a.2 = b.2 ∧ a.1 ≤ b.1)

instance : DecidableRel pairLexLe :=
  fun a b => inferInstanceAs (Decidable (a.2 < b.2 ∨ (a.2 = b.2 ∧ a.1 ≤ b.1)))

/-- The specification's ordering on users: distance to the target
ascending, id ascending on equal distances. -/
def userLexLe (t : Int) (a b : User) : Prop := pairLexLe (keyOf t a) (keyOf t b)

instance (t : Int) : DecidableRel (userLexLe t) :=
  fun a b => inferInstanceAs (Decidable (pairLexLe (keyOf t a) (keyOf t b)))

/-- The specification's winner set: ids of the first `min 5 n` users in the
lexicographic (distance, id) order. -/
def spec_winner_ids (db : List User) (t : Int) : List Int :=
  ((List.insertionSort (userLexLe t) db).take (min 5 db.length)).map User.id

/-- The specification's display order: winners strictly before non-winners,
and inside each group distance ascending with id as tie-break. -/
def fullLe (t : Int) (a b : User) : Prop :=
  (a.winner = true ∧ b.winner = false) ∨ (a.winner = b.winner ∧ userLexLe t a b)

instance (t : Int) : DecidableRel (fullLe t) :=
  fun a b => inferInstanceAs
    (Decidable ((a.winner = true ∧ b.winner = false) ∨
      (a.winner = b.winner ∧ userLexLe t a b)))

/-! ### Generic facts about `List.insertionSort` -/

theorem orderedInsert_congr {α : Type} {r s : α → α → Prop}
    [DecidableRel r] [DecidableRel s] (a : α) (l : List α)
    (h : ∀ b ∈ l, r a b ↔ s a b) :
    l.orderedInsert r a = l.orderedInsert s a := by
  induction l with
  | nil => rfl
  | cons b tl ih =>
    simp only [List.orderedInsert]
    by_cases hb : r a b
    · rw [if_pos hb, if_pos ((h b (List.mem_cons_self b tl)).mp hb)]
    · rw [if_neg hb, if_neg (fun hs2 => hb ((h b (List.mem_cons_self b tl)).mpr hs2)),
        ih (fun c hc => h c (List.mem_cons_of_mem b hc))]

/-- Two sort orders that agree on every pair that appears in original order
in `l` produce the same insertion sort.  This is the formal content of
stability: the stable sort by a coarse key is the sort by the key refined
with the original position as tie-break. -/
theorem insertionSort_congr {α : Type} {r s : α → α → Prop}
    [DecidableRel r] [DecidableRel s] (l : List α)
    (h : l.Pairwise (fun a b => r a b ↔ s a b)) :
    List.insertionSort r l = List.insertionSort s l := by
  induction l with
  | nil => rfl
  | cons a tl ih =>
    rcases List.pairwise_cons.mp h with ⟨ha, htl⟩
    simp only [List.insertionSort]
    rw [ih htl]
    exact orderedInsert_congr a _ fun b hb =>
      ha b ((List.perm_insertionSort s tl).subset hb)

/-- Uniqueness of sorted permutations, needing antisymmetry only on the
members of the list. -/
theorem sorted_perm_eq {α : Type} {r : α → α → Prop} :
    ∀ {l₁ l₂ : List α}, (∀ a ∈ l₁, ∀ b ∈ l₁, r a b → r b a → a = b) →
      l₁.Perm l₂ → l₁.Sorted r → l₂.Sorted r → l₁ = l₂ := by
  intro l₁
  induction l₁ with
  | nil =>
    intro l₂ _ p _ _
    exact (p.symm.eq_nil).symm
  | cons a t₁ ih =>
    intro l₂ hanti p s₁ s₂
    cases l₂ with
    | nil => exact absurd p.eq_nil (List.cons_ne_nil a t₁)
    | cons b t₂ =>
      have hab : a = b := by
        by_contra hne
        have hbmem : b ∈ a :: t₁ := p.symm.subset (List.mem_cons_self b t₂)
        have hamem : a ∈ b :: t₂ := p.subset (List.mem_cons_self a t₁)
        have hb1 : b ∈ t₁ := by
          rcases List.mem_cons.mp hbmem with h | h
          · exact absurd h.symm hne
          · exact h
        have ha2 : a ∈ t₂ := by
          rcases List.mem_cons.mp hamem with h | h
          · exact absurd h hne
          · exact h
        have hrab : r a b := List.rel_of_sorted_cons s₁ b hb1
        have hrba : r b a := List.rel_of_sorted_cons s₂ a ha2
        exact hne (hanti a (List.mem_cons_self a t₁) b (List.mem_cons_of_mem a hb1)
          hrab hrba)
      subst hab
      have p' : t₁.Perm t₂ := (List.perm_cons a).mp p
      have htail := ih (fun x hx y hy =>
        hanti x (List.mem_cons_of_mem a hx) y (List.mem_cons_of_mem a hy))
        p' s₁.of_cons s₂.of_cons
      rw [htail]

/-! ### Order instances for the specification-side relations -/

instance : IsTrans (Int × Int) pairLexLe where
  trans a b c hab hbc := by
    simp only [pairLexLe] at hab hbc ⊢
    omega

instance : IsTotal (Int × Int) pairLexLe where
  total a b := by
    simp only [pairLexLe]
    omega

instance (t : Int) : IsTrans User (userLexLe t) where
  trans a b c hab hbc := by
    simp only [userLexLe, pairLexLe] at hab hbc ⊢
    omega

instance (t : Int) : IsTotal User (userLexLe t) where
  total a b := by
    simp only [userLexLe, pairLexLe]
    omega

instance (t : Int) : IsTrans User (fullLe t) where
  trans a b c hab hbc := by
    simp only [fullLe, userLexLe, pairLexLe] at hab hbc ⊢
    cases ha : a.winner <;> cases hb : b.winner <;> cases hc : c.winner <;>
      simp_all <;> omega

instance (t : Int) : IsTotal User (fullLe t) where
  total a b := by
    simp only [fullLe, userLexLe, pairLexLe]
    cases ha : a.winner <;> cases hb : b.winner <;> simp_all <;> omega

/-! ### Small facts about the row operations -/

@[simp] theorem resetWinner_id (u : User) : (resetWinner u).id = u.id := rfl

@[simp] theorem resetWinner_number (u : User) :
    (resetWinner u).number = u.number := rfl

@[simp] theorem resetWinner_winner (u : User) :
    (resetWinner u).winner = false := rfl

@[simp] theorem markIf_id (w : List Int) (u : User) : (markIf w u).id = u.id := by
  unfold markIf; split <;> rfl

@[simp] theorem markIf_number (w : List Int) (u : User) :
    (markIf w u).number = u.number := by
  unfold markIf; split <;> rfl

theorem markIf_winner (w : List Int) (u : User) :
    (markIf w u).winner = (decide (u.id ∈ w) || u.winner) := by
  unfold markIf; split <;> simp_all

@[simp] theorem keyOf_resetWinner (t : Int) (u : User) :
    keyOf t (resetWinner u) = keyOf t u := rfl

@[simp] theorem keyOf_markIf (t : Int) (w : List Int) (u : User) :
    keyOf t (markIf w u) = keyOf t u := by
  unfold markIf; split <;> rfl

@[simp] theorem resetWinner_resetWinner (u : User) :
    resetWinner (resetWinner u) = resetWinner u := rfl

@[simp] theorem resetWinner_markIf (w : List Int) (u : User) :
    resetWinner (markIf w u) = resetWinner u := by
  unfold markIf; split <;> rfl

/-- In a table with strictly increasing ids, the id determines the row. -/
theorem id_inj_of_pairwise {db : List User}
    (h : db.Pairwise (fun a b => a.id < b.id)) :
    ∀ a ∈ db, ∀ b ∈ db, a.id = b.id → a = b := by
  induction db with
  | nil => intro a ha; cases ha
  | cons u tl ih =>
    rcases List.pairwise_cons.mp h with ⟨hu, htl⟩
    intro a ha b hb heq
    rcases List.mem_cons.mp ha with rfl | ha'
    · rcases List.mem_cons.mp hb with rfl | hb'
      · rfl
      · exact absurd heq (by have := hu b hb'; omega)
    · rcases List.mem_cons.mp hb with rfl | hb'
      · exact absurd heq (by have := hu a ha'; omega)
      · exact ih htl a ha' b hb' heq

/-! ### Structure of `calculate_winners` -/

/-- Unconditional closed form: every flag is reset, then the computed
winner ids are marked (an empty table is the fixed point of both steps). -/
theorem calculate_winners_eq (db : List User) (t : Int) :
    calculate_winners db t
      = (db.map resetWinner).map (markIf (winnerIds (db.map resetWinner) t)) := by
  unfold calculate_winners
  cases db with
  | nil => rfl
  | cons u tl => rfl

/-- The winner ids do not depend on the pre-existing flags. -/
theorem winnerIds_reset (db : List User) (t : Int) :
    winnerIds (db.map resetWinner) t = winnerIds db t := by
  unfold winnerIds
  simp [List.map_map, Function.comp_def]

theorem pairwise_id_reset {db : List User}
    (h : db.Pairwise (fun a b => a.id < b.id)) :
    (db.map resetWinner).Pairwise (fun a b => a.id < b.id) :=
  List.pairwise_map.mpr (h.imp fun hab => by simpa using hab)

/-- A user of the output table is flagged winner exactly when its id is in
the computed winner-id list. -/
theorem winner_iff_mem_winnerIds {db : List User} {t : Int} {u : User}
    (hu : u ∈ calculate_winners db t) :
    u.winner = true ↔ u.id ∈ winnerIds db t := by
  rw [calculate_winners_eq, winnerIds_reset] at hu
  rcases List.mem_map.mp hu with ⟨v, hv, rfl⟩
  rcases List.mem_map.mp hv with ⟨v0, _, rfl⟩
  simp [markIf_winner]

theorem length_winnerIds (db : List User) (t : Int) :
    (winnerIds db t).length = min 5 db.length := by
  unfold winnerIds
  simp only [List.length_map, List.length_take, List.length_insertionSort]
  omega

/-- The ids of a strictly id-sorted table are distinct. -/
theorem nodup_ids {db : List User} (h : db.Pairwise (fun a b => a.id < b.id)) :
    (db.map User.id).Nodup :=
  List.pairwise_map.mpr (h.imp fun hab => by omega)

theorem winnerIds_sublist (db : List User) (t : Int) :
    (winnerIds db t).Sublist
      ((List.insertionSort distLe (db.map (keyOf t))).map Prod.fst) := by
  unfold winnerIds
  rw [List.map_take]
  exact List.take_sublist _ _

theorem map_fst_key (db : List User) (t : Int) :
    (db.map (keyOf t)).map Prod.fst = db.map User.id := by
  simp [List.map_map, Function.comp_def, keyOf]

/-- The id components of the sorted key list form a permutation of the
table's ids. -/
theorem sorted_fst_perm (db : List User) (t : Int) :
    ((List.insertionSort distLe (db.map (keyOf t))).map Prod.fst).Perm
      (db.map User.id) := by
  rw [← map_fst_key db t]
  exact (List.perm_insertionSort distLe (db.map (keyOf t))).map Prod.fst

theorem nodup_winnerIds {db : List User} (t : Int)
    (h : db.Pairwise (fun a b => a.id < b.id)) : (winnerIds db t).Nodup :=
  ((sorted_fst_perm db t).nodup_iff.mpr (nodup_ids h)).sublist
    (winnerIds_sublist db t)

theorem winnerIds_subset {db : List User} (t : Int) :
    ∀ i ∈ winnerIds db t, i ∈ db.map User.id := fun _ hi =>
  (sorted_fst_perm db t).subset ((winnerIds_sublist db t).subset hi)

/-- A sample single registration used by witnesses. -/
def joUser : User :=
  { id := 1, first_name := "Jo", surname := "Doe", email := "a@b.com",
    number := 7, winner := false }

/-- A sample table, the scenario of §8 of the specification: numbers
`[10, 50, 55, 60, 65, 70]`, target `50`. -/
def sampleDb : List User :=
  [{ id := 1, first_name := "Ann", surname := "Ash", email := "ann@x.de",
     number := 10, winner := false },
   { id := 2, first_name := "Ben", surname := "Bay", email := "ben@x.de",
     number := 50, winner := false },
   { id := 3, first_name := "Cid", surname := "Cox", email := "cid@x.de",
     number := 55, winner := false },
   { id := 4, first_name := "Dee", surname := "Day", email := "dee@x.de",
     number := 60, winner := false },
   { id := 5, first_name := "Eli", surname := "Elm", email := "eli@x.de",
     number := 65, winner := false },
   { id := 6, first_name := "Fay", surname := "Fir", email := "fay@x.de",
     number := 70, winner := false }]

/-! ### Counting winners -/

theorem count_winners {db : List User} (t : Int)
    (h : db.Pairwise (fun a b => a.id < b.id)) :
    ((calculate_winners db t).filter (fun u => u.winner)).length
      = min 5 db.length := by
  rw [calculate_winners_eq, winnerIds_reset]
  rw [List.filter_map, List.length_map]
  have hcong : List.filter ((fun u : User => u.winner) ∘ markIf (winnerIds db t))
        (db.map resetWinner)
      = List.filter (fun v => decide (v.id ∈ winnerIds db t))
        (db.map resetWinner) := by
    apply List.filter_congr
    intro v hv
    rcases List.mem_map.mp hv with ⟨v0, _, rfl⟩
    simp [Function.comp, markIf_winner]
  rw [hcong, ← List.countP_eq_length_filter]
  have hfn : (fun v : User => decide (v.id ∈ winnerIds db t))
      = ((fun i : Int => decide (i ∈ winnerIds db t)) ∘ User.id) := rfl
  rw [hfn, ← List.countP_map]
  have hid : (db.map resetWinner).map User.id = db.map User.id := by
    simp [List.map_map, Function.comp_def]
  rw [hid, List.countP_eq_length_filter]
  have hperm : (List.filter (fun i => decide (i ∈ winnerIds db t))
      (db.map User.id)).Perm (winnerIds db t) := by
    apply (List.perm_ext_iff_of_nodup ((nodup_ids h).filter _)
      (nodup_winnerIds t h)).mpr
    intro i
    simp only [List.mem_filter, decide_eq_true_eq]
    exact ⟨fun hi => hi.2, fun hi => ⟨winnerIds_subset t i hi, hi⟩⟩
  rw [hperm.length_eq, length_winnerIds]

theorem length_calculate_winners (db : List User) (t : Int) :
    (calculate_winners db t).length = db.length := by
  rw [calculate_winners_eq]
  simp

/-- C1.  After a ranking run exactly `min 5 n` entries are flagged winner,
the table keeps all its `n` rows (so every other row is a non-winner),
and the outcome is independent of whatever flags earlier runs left:
the flags are fully recomputed. -/
theorem claim_C1 (db : List User) (t : Int)
    (h : db.Pairwise (fun a b => a.id < b.id)) :
    ((calculate_winners db t).filter (fun u => u.winner)).length
        = min 5 db.length ∧
    (calculate_winners db t).length = db.length ∧
    ∀ g : Int → Bool,
      calculate_winners (db.map fun u => { u with winner := g u.id }) t
        = calculate_winners db t := by
  refine ⟨count_winners t h, length_calculate_winners db t, ?_⟩
  intro g
  rw [calculate_winners_eq, calculate_winners_eq]
  have h1 : (db.map fun u => { u with winner := g u.id }).map resetWinner
      = db.map resetWinner := by
    simp [List.map_map, Function.comp_def, resetWinner]
  rw [h1]

/-- Witness for C1 at the §8 scenario table and target 50. -/
theorem claim_C1_witness :
    sampleDb.Pairwise (fun a b => a.id < b.id) ∧
    ((calculate_winners sampleDb 50).filter (fun u => u.winner)).length
        = min 5 sampleDb.length ∧
    (calculate_winners sampleDb 50).length = sampleDb.length ∧
    calculate_winners (sampleDb.map fun u => { u with winner := true }) 50
      = calculate_winners sampleDb 50 :=
  ⟨by decide, (claim_C1 sampleDb 50 (by decide)).1,
   (claim_C1 sampleDb 50 (by decide)).2.1,
   by exact (claim_C1 sampleDb 50 (by decide)).2.2 (fun _ => true)⟩

/-! ### The stable distance sort equals the (distance, id) lexicographic sort -/

instance : IsTrans (Int × Int) distLe where
  trans _ _ _ hab hbc := le_trans hab hbc

instance : IsTotal (Int × Int) distLe where
  total a b := le_total a.2 b.2

/-- On a list whose first components are strictly increasing (the original
id order), the stable sort by the second component agrees with the full
lexicographic sort: stability resolves ties by the original id order. -/
theorem sort_dist_eq_lex {l : List (Int × Int)}
    (h : l.Pairwise (fun a b => a.1 < b.1)) :
    List.insertionSort distLe l = List.insertionSort pairLexLe l :=
  insertionSort_congr l (h.imp fun hab => by
    simp only [distLe, pairLexLe]
    omega)

/-- Sorting users by `(distance, id)` and then projecting to keys is the
same as sorting the keys. -/
theorem sortU_map_key (t : Int) (db : List User) :
    (List.insertionSort (userLexLe t) db).map (keyOf t)
      = List.insertionSort pairLexLe (db.map (keyOf t)) :=
  List.map_insertionSort (userLexLe t) pairLexLe (keyOf t) db
    (fun _ _ _ _ => Iff.rfl)

/-- For a table with strictly increasing ids the ids computed by
`calculate_winners` are exactly the specification's winner ids. -/
theorem winnerIds_eq_spec {db : List User} (t : Int)
    (h : db.Pairwise (fun a b => a.id < b.id)) :
    winnerIds db t = spec_winner_ids db t := by
  unfold winnerIds spec_winner_ids
  dsimp only
  have hkeys : (db.map (keyOf t)).Pairwise (fun a b => a.1 < b.1) :=
    List.pairwise_map.mpr (h.imp fun hab => by simpa [keyOf] using hab)
  rw [sort_dist_eq_lex hkeys, ← sortU_map_key t db, ← List.map_take,
    List.map_map, List.length_map, Nat.min_comm db.length 5]
  rfl

/-- C2.  A ranking run flags a user exactly when its id is among the first
`min 5 n` entries of the (distance ascending, id ascending) lexicographic
order; equal distances are therefore resolved in favour of the lowest id,
deterministically. -/
theorem claim_C2 (db : List User) (t : Int)
    (h : db.Pairwise (fun a b => a.id < b.id)) :
    ∀ u ∈ calculate_winners db t,
      (u.winner = true ↔ u.id ∈ spec_winner_ids db t) := by
  intro u hu
  rw [← winnerIds_eq_spec t h]
  exact winner_iff_mem_winnerIds hu

/-- Witness for C2: on the §8 scenario table with target 50 the
specification's winner ids evaluate to `[2, 3, 4, 5, 6]`. -/
theorem claim_C2_witness :
    sampleDb.Pairwise (fun a b => a.id < b.id) ∧
    spec_winner_ids sampleDb 50 = [2, 3, 4, 5, 6] ∧
    ∀ u ∈ calculate_winners sampleDb 50,
      (u.winner = true ↔ u.id ∈ spec_winner_ids sampleDb 50) :=
  ⟨by decide, by decide, claim_C2 sampleDb 50 (by decide)⟩

/-! ### Winners are at minimal distance -/

/-- The keys of the output table are the keys of the input table. -/
theorem out_keys (db : List User) (t : Int) :
    (calculate_winners db t).map (keyOf t) = db.map (keyOf t) := by
  rw [calculate_winners_eq]
  simp [List.map_map, Function.comp_def]

/-- Core of C3: a winner's distance never exceeds a non-winner's. -/
theorem winner_dist_le {db : List User} {t : Int}
    (h : db.Pairwise (fun a b => a.id < b.id)) :
    ∀ a ∈ calculate_winners db t, ∀ c ∈ calculate_winners db t,
      a.winner = true → c.winner = false →
        dist32 a.number t ≤ dist32 c.number t := by
  intro a ha c hc hwa hwc
  have hWa : a.id ∈ winnerIds db t := (winner_iff_mem_winnerIds ha).mp hwa
  have hWc : c.id ∉ winnerIds db t := by
    intro hmem
    have hcontr := (winner_iff_mem_winnerIds hc).mpr hmem
    rw [hwc] at hcontr
    cases hcontr
  have hWdef : winnerIds db t
      = ((List.insertionSort distLe (db.map (keyOf t))).take
          (min (db.map (keyOf t)).length 5)).map Prod.fst := rfl
  have hmemS : ∀ u ∈ calculate_winners db t,
      keyOf t u ∈ List.insertionSort distLe (db.map (keyOf t)) := by
    intro u hu
    have hmem : keyOf t u ∈ (calculate_winners db t).map (keyOf t) :=
      List.mem_map_of_mem (keyOf t) hu
    rw [out_keys] at hmem
    exact (List.perm_insertionSort distLe (db.map (keyOf t))).symm.subset hmem
  have hnodS : ((List.insertionSort distLe (db.map (keyOf t))).map Prod.fst).Nodup :=
    (sorted_fst_perm db t).nodup_iff.mpr (nodup_ids h)
  have hnodsplit : (((List.insertionSort distLe (db.map (keyOf t))).take
        (min (db.map (keyOf t)).length 5)).map Prod.fst
      ++ ((List.insertionSort distLe (db.map (keyOf t))).drop
        (min (db.map (keyOf t)).length 5)).map Prod.fst).Nodup := by
    rw [← List.map_append, List.take_append_drop]
    exact hnodS
  rcases List.nodup_append.mp hnodsplit with ⟨_, _, hdisj⟩
  have hamem : keyOf t a ∈ (List.insertionSort distLe (db.map (keyOf t))).take
        (min (db.map (keyOf t)).length 5)
      ++ (List.insertionSort distLe (db.map (keyOf t))).drop
        (min (db.map (keyOf t)).length 5) := by
    rw [List.take_append_drop]
    exact hmemS a ha
  have hcmem : keyOf t c ∈ (List.insertionSort distLe (db.map (keyOf t))).take
        (min (db.map (keyOf t)).length 5)
      ++ (List.insertionSort distLe (db.map (keyOf t))).drop
        (min (db.map (keyOf t)).length 5) := by
    rw [List.take_append_drop]
    exact hmemS c hc
  have hta : keyOf t a ∈ (List.insertionSort distLe (db.map (keyOf t))).take
      (min (db.map (keyOf t)).length 5) := by
    rcases List.mem_append.mp hamem with htk | hdk
    · exact htk
    · exfalso
      rw [hWdef] at hWa
      exact hdisj hWa (List.mem_map_of_mem Prod.fst hdk)
  have htc : keyOf t c ∈ (List.insertionSort distLe (db.map (keyOf t))).drop
      (min (db.map (keyOf t)).length 5) := by
    rcases List.mem_append.mp hcmem with htk | hdk
    · exfalso
      rw [hWdef] at hWc
      exact hWc (List.mem_map_of_mem Prod.fst htk)
    · exact hdk
  have hsorted : (List.insertionSort distLe (db.map (keyOf t))).Pairwise distLe :=
    List.sorted_insertionSort distLe (db.map (keyOf t))
  have hsplitpw : List.Pairwise distLe
      ((List.insertionSort distLe (db.map (keyOf t))).take
          (min (db.map (keyOf t)).length 5)
        ++ (List.insertionSort distLe (db.map (keyOf t))).drop
          (min (db.map (keyOf t)).length 5)) := by
    rw [List.take_append_drop]
    exact hsorted
  exact (List.pairwise_append.mp hsplitpw).2.2 (keyOf t a) hta (keyOf t c) htc

/-- C3.  No non-winner is strictly closer to the target than any winner:
for winners `a, b` and non-winner `c` of the same ranking run,
`distance a ≤ distance c` and `distance b ≤ distance c`. -/
theorem claim_C3 (db : List User) (t : Int)
    (h : db.Pairwise (fun a b => a.id < b.id)) :
    ∀ a ∈ calculate_winners db t, ∀ b ∈ calculate_winners db t,
      ∀ c ∈ calculate_winners db t,
      a.winner = true → b.winner = true → c.winner = false →
        dist32 a.number t ≤ dist32 c.number t ∧
        dist32 b.number t ≤ dist32 c.number t := by
  intro a ha b hb c hc hwa hwb hwc
  exact ⟨winner_dist_le h a ha c hc hwa hwc, winner_dist_le h b hb c hc hwb hwc⟩

/-- Witness for C3 at the §8 scenario: the entry with number 10 is the
non-winner, at distance 40 from the target 50. -/
theorem claim_C3_witness :
    sampleDb.Pairwise (fun a b => a.id < b.id) ∧
    ∀ a ∈ calculate_winners sampleDb 50, ∀ b ∈ calculate_winners sampleDb 50,
      ∀ c ∈ calculate_winners sampleDb 50,
      a.winner = true → b.winner = true → c.winner = false →
        dist32 a.number 50 ≤ dist32 c.number 50 ∧
        dist32 b.number 50 ≤ dist32 c.number 50 :=
  ⟨by decide, claim_C3 sampleDb 50 (by decide)⟩

/-! ### Idempotence of the ranking run -/

/-- A ranking run only touches the `winner` flags: resetting the output
gives back the reset input. -/
theorem reset_calculate_winners (db : List User) (t : Int) :
    (calculate_winners db t).map resetWinner = db.map resetWinner := by
  rw [calculate_winners_eq]
  simp [List.map_map, Function.comp_def]

/-- C7.  Running the winner selection twice in a row with the same target
and no intervening inserts gives the same table (hence the same winner
set) as running it once. -/
theorem claim_C7 (db : List User) (t : Int) :
    calculate_winners (calculate_winners db t) t = calculate_winners db t := by
  rw [calculate_winners_eq (calculate_winners db t) t, reset_calculate_winners,
    ← calculate_winners_eq db t]

/-! ### The display ordering -/

theorem intCmp_ne_gt {a b : Int} : (intCmp a b ≠ .gt) ↔ a ≤ b := by
  unfold intCmp
  by_cases h1 : a < b
  · simp only [if_pos h1]
    constructor
    · intro _; omega
    · intro _ hc; cases hc
  · by_cases h2 : a = b
    · simp only [if_neg h1, if_pos h2]
      constructor
      · intro _; omega
      · intro _ hc; cases hc
    · simp only [if_neg h1, if_neg h2]
      constructor
      · intro hc; exact absurd rfl hc
      · intro hle; omega

/-- When `a` precedes `b` in id order, the code's comparator order agrees
with the specification's winners-first lexicographic order: this is where
stability turns the arbitrary tie-break into "lowest id wins". -/
theorem sortLe_iff_fullLe {t : Int} {a b : User} (hid : a.id ≤ b.id) :
    sortLe t a b ↔ fullLe t a b := by
  unfold sortLe cmpUser fullLe userLexLe pairLexLe keyOf
  cases ha : a.winner <;> cases hb : b.winner <;>
    simp [intCmp_ne_gt, ha, hb] <;> omega

theorem sort_code_eq_full {db : List User} (t : Int)
    (h : db.Pairwise (fun a b => a.id < b.id)) :
    List.insertionSort (sortLe t) db = List.insertionSort (fullLe t) db :=
  insertionSort_congr db (h.imp fun hab => sortLe_iff_fullLe (le_of_lt hab))

theorem pairwise_imp_of_mem {α : Type} {R S : α → α → Prop} :
    ∀ {l : List α}, (∀ a ∈ l, ∀ b ∈ l, R a b → S a b) →
      l.Pairwise R → l.Pairwise S := by
  intro l
  induction l with
  | nil => intro _ _; exact List.Pairwise.nil
  | cons a tl ih =>
    intro hmem hp
    rcases List.pairwise_cons.mp hp with ⟨ha, htl⟩
    exact List.pairwise_cons.mpr
      ⟨fun b hb => hmem a (List.mem_cons_self a tl) b
        (List.mem_cons_of_mem a hb) (ha b hb),
       ih (fun x hx y hy => hmem x (List.mem_cons_of_mem a hx) y
        (List.mem_cons_of_mem a hy)) htl⟩

theorem fullLe_antisymm_on {db : List User} {t : Int}
    (h : db.Pairwise (fun a b => a.id < b.id)) :
    ∀ a ∈ db, ∀ b ∈ db, fullLe t a b → fullLe t b a → a = b := by
  intro a ha b hb hab hba
  apply id_inj_of_pairwise h a ha b hb
  rcases hab with ⟨hw1, hw2⟩ | ⟨hw, hlex⟩ <;>
    rcases hba with ⟨gw1, gw2⟩ | ⟨gw, glex⟩
  · rw [hw1] at gw2; cases gw2
  · rw [hw1] at gw; rw [hw2] at gw; cases gw
  · rw [gw1] at hw; rw [gw2] at hw; cases hw
  · simp only [userLexLe, pairLexLe, keyOf] at hlex glex
    omega

/-- C4.  The display ordering of `get_sorted_users` lists the
winner-flagged rows first, each group internally in (distance ascending,
id ascending) order, and is a permutation of the table: no row is added,
dropped or duplicated. -/
theorem claim_C4 (db : List User) (t : Int)
    (h : db.Pairwise (fun a b => a.id < b.id)) :
    get_sorted_users db t
      = List.insertionSort (userLexLe t) (db.filter (fun u => u.winner))
        ++ List.insertionSort (userLexLe t) (db.filter (fun u => !u.winner)) ∧
    (get_sorted_users db t).Perm db := by
  refine ⟨?_, List.perm_insertionSort (sortLe t) db⟩
  unfold get_sorted_users
  rw [sort_code_eq_full t h]
  have hpermW : (List.insertionSort (userLexLe t)
        (db.filter (fun u => u.winner))).Perm (db.filter (fun u => u.winner)) :=
    List.perm_insertionSort _ _
  have hpermL : (List.insertionSort (userLexLe t)
        (db.filter (fun u => !u.winner))).Perm (db.filter (fun u => !u.winner)) :=
    List.perm_insertionSort _ _
  have hpermRHS : (List.insertionSort (userLexLe t) (db.filter (fun u => u.winner))
      ++ List.insertionSort (userLexLe t) (db.filter (fun u => !u.winner))).Perm db :=
    (hpermW.append hpermL).trans (List.filter_append_perm (fun u => u.winner) db)
  have hperm : (List.insertionSort (fullLe t) db).Perm
      (List.insertionSort (userLexLe t) (db.filter (fun u => u.winner))
        ++ List.insertionSort (userLexLe t) (db.filter (fun u => !u.winner))) :=
    (List.perm_insertionSort (fullLe t) db).trans hpermRHS.symm
  have hmemW : ∀ x ∈ List.insertionSort (userLexLe t)
      (db.filter (fun u => u.winner)), x.winner = true := by
    intro x hx
    exact (List.mem_filter.mp (hpermW.subset hx)).2
  have hmemL : ∀ x ∈ List.insertionSort (userLexLe t)
      (db.filter (fun u => !u.winner)), x.winner = false := by
    intro x hx
    have h2 := (List.mem_filter.mp (hpermL.subset hx)).2
    simpa using h2
  have hsortW : (List.insertionSort (userLexLe t)
      (db.filter (fun u => u.winner))).Pairwise (fullLe t) :=
    pairwise_imp_of_mem
      (fun a ha b hb hab => Or.inr ⟨by rw [hmemW a ha, hmemW b hb], hab⟩)
      (List.sorted_insertionSort (userLexLe t) _)
  have hsortL : (List.insertionSort (userLexLe t)
      (db.filter (fun u => !u.winner))).Pairwise (fullLe t) :=
    pairwise_imp_of_mem
      (fun a ha b hb hab => Or.inr ⟨by rw [hmemL a ha, hmemL b hb], hab⟩)
      (List.sorted_insertionSort (userLexLe t) _)
  have hsortRHS : (List.insertionSort (userLexLe t) (db.filter (fun u => u.winner))
      ++ List.insertionSort (userLexLe t)
        (db.filter (fun u => !u.winner))).Pairwise (fullLe t) :=
    List.pairwise_append.mpr ⟨hsortW, hsortL,
      fun a ha b hb => Or.inl ⟨hmemW a ha, hmemL b hb⟩⟩
  exact sorted_perm_eq
    (fun a ha b hb hab hba => fullLe_antisymm_on h a
      ((List.perm_insertionSort (fullLe t) db).subset ha) b
      ((List.perm_insertionSort (fullLe t) db).subset hb) hab hba)
    hperm (List.sorted_insertionSort (fullLe t) db) hsortRHS

/-- Witness for C4 on the ranked §8 scenario table. -/
theorem claim_C4_witness :
    (calculate_winners sampleDb 50).Pairwise (fun a b => a.id < b.id) ∧
    (get_sorted_users (calculate_winners sampleDb 50) 50
      = List.insertionSort (userLexLe 50)
          ((calculate_winners sampleDb 50).filter (fun u => u.winner))
        ++ List.insertionSort (userLexLe 50)
          ((calculate_winners sampleDb 50).filter (fun u => !u.winner)) ∧
    (get_sorted_users (calculate_winners sampleDb 50) 50).Perm
      (calculate_winners sampleDb 50)) :=
  ⟨by decide, claim_C4 (calculate_winners sampleDb 50) 50 (by decide)⟩

/-! ### Validation order -/

/-- C5.  Validation checks its rules in a fixed order with short-circuit:
empty field first (`MissingField`), then unparsable number
(`NotANumber`), then the range check (`OutOfRange`); when all pass the
entry is inserted.  The three concrete scenarios of §8 are included. -/
theorem claim_C5 :
    (∀ (db : List User) (fn sn em nt : String),
        (fn.isEmpty || sn.isEmpty || em.isEmpty || nt.isEmpty) = true →
        submit_registration db fn sn em nt
          = (db, .error .MissingField)) ∧
    (∀ (db : List User) (fn sn em nt : String),
        (fn.isEmpty || sn.isEmpty || em.isEmpty || nt.isEmpty) = false →
        parseI32 nt = none →
        submit_registration db fn sn em nt = (db, .error .NotANumber)) ∧
    (∀ (db : List User) (fn sn em nt : String) (n : Int),
        (fn.isEmpty || sn.isEmpty || em.isEmpty || nt.isEmpty) = false →
        parseI32 nt = some n → n < 1 →
        submit_registration db fn sn em nt = (db, .error .OutOfRange)) ∧
    (∀ (db : List User) (fn sn em nt : String) (n : Int),
        (fn.isEmpty || sn.isEmpty || em.isEmpty || nt.isEmpty) = false →
        parseI32 nt = some n → 1 ≤ n →
        submit_registration db fn sn em nt
          = (db ++ [User.mk (nextId db) fn sn em n false], .ok ())) ∧
    (∀ db : List User,
      submit_registration db "" "Doe" "a@b.com" "5"
        = (db, .error .MissingField)) ∧
    (∀ db : List User,
      submit_registration db "Jo" "Doe" "a@b.com" "abc"
        = (db, .error .NotANumber)) ∧
    (∀ db : List User,
      submit_registration db "Jo" "Doe" "a@b.com" "0"
        = (db, .error .OutOfRange)) := by
  refine ⟨?_, ?_, ?_, ?_, fun db => rfl, fun db => rfl, fun db => rfl⟩
  · intro db fn sn em nt hemp
    simp [submit_registration, validate, hemp]
  · intro db fn sn em nt hemp hp
    simp [submit_registration, validate, hemp, hp]
  · intro db fn sn em nt n hemp hp hn
    have hlt : ¬(1 ≤ n) := by omega
    simp [submit_registration, validate, hemp, hp, hlt]
  · intro db fn sn em nt n hemp hp hn
    simp [submit_registration, validate, insert_user, hemp, hp, hn]

/-- Witness for C5: a fully valid registration inserts the entry with
the parsed number and fresh id 1 into the empty table. -/
theorem claim_C5_witness :
    submit_registration [] "Jo" "Doe" "a@b.com" "7" = ([joUser], .ok ()) ∧
    submit_registration [] "" "Doe" "a@b.com" "5" = ([], .error .MissingField) := by
  refine ⟨?_, ?_⟩
  · exact claim_C5.2.2.2.1 [] "Jo" "Doe" "a@b.com" "7" 7 (by decide) (by decide) (by decide)
  · exact claim_C5.2.2.2.2.1 []

/-! ### The export formatter -/

/-- C6.  Export fails with the no-data error exactly on the empty table;
otherwise it succeeds and produces the header row followed by one data
row per entry in the supplied order (the formatter applies no
reordering), with the winner column rendered by `userRow` as
`YES` / `NO`. -/
theorem claim_C6 (users : List User) :
    (export_to_excel users = .error "No data to export!" ↔ users = []) ∧
    (users ≠ [] →
      export_to_excel users = .ok (headerRow :: users.map userRow) ∧
      (headerRow :: users.map userRow).length = 1 + users.length) := by
  cases users with
  | nil =>
    constructor
    · simp [export_to_excel]
    · intro hne; exact absurd rfl hne
  | cons u tl =>
    constructor
    · simp [export_to_excel]
    · intro _
      constructor
      · simp [export_to_excel]
      · simp [List.length_map]
        omega

/-- Witness for C6: a single-row table exports to the header plus one
data row. -/
theorem claim_C6_witness :
    ([joUser] : List User) ≠ [] ∧
    (export_to_excel [joUser] = .ok (headerRow :: [joUser].map userRow) ∧
      (headerRow :: [joUser].map userRow).length = 1 + [joUser].length) :=
  ⟨by decide, (claim_C6 [joUser]).2 (by decide)⟩

/-! ### 32-bit distance arithmetic -/

theorem i32wrap_eq_self {x : Int} (h1 : -(2 ^ 31) ≤ x) (h2 : x ≤ 2 ^ 31 - 1) :
    i32wrap x = x := by
  unfold i32wrap
  omega

/-- C9.  Whenever the mathematical difference `number - target` lies in the
`i32` range and its absolute value is at most `2 ^ 31 - 1`, the computed
distance is the true absolute difference; and the hypothesis genuinely can
fail for accepted inputs: the accepted number `2 ^ 31 - 1` against the
target `-(2 ^ 31)` yields computed distance `1`, not the mathematical
`2 ^ 32 - 1`. -/
theorem claim_C9 :
    (∀ num t : Int, -(2 ^ 31) ≤ num - t → num - t ≤ 2 ^ 31 - 1 →
        |num - t| ≤ 2 ^ 31 - 1 → dist32 num t = |num - t|) ∧
    (1 ≤ (2 ^ 31 - 1 : Int) ∧
      dist32 (2 ^ 31 - 1) (-(2 ^ 31)) = 1 ∧
      |(2 ^ 31 - 1 : Int) - (-(2 ^ 31))| = 2 ^ 32 - 1 ∧
      dist32 (2 ^ 31 - 1) (-(2 ^ 31)) ≠ |(2 ^ 31 - 1 : Int) - (-(2 ^ 31))|) := by
  constructor
  · intro num t h1 h2 h3
    rw [Int.abs_eq_natAbs] at h3 ⊢
    unfold dist32 i32sub i32abs i32wrap
    omega
  · refine ⟨by norm_num, by norm_num [dist32, i32abs, i32sub, i32wrap], ?_, ?_⟩
    · rw [abs_of_nonneg (by norm_num)]
      norm_num
    · norm_num [dist32, i32abs, i32sub, i32wrap, abs_of_nonneg]

/-- Witness for C9 at an in-range pair. -/
theorem claim_C9_witness :
    -(2 ^ 31) ≤ (55 : Int) - 50 ∧ (55 : Int) - 50 ≤ 2 ^ 31 - 1 ∧
    |(55 : Int) - 50| ≤ 2 ^ 31 - 1 ∧ dist32 55 50 = |(55 : Int) - 50| :=
  ⟨by norm_num, by norm_num, by norm_num,
   claim_C9.1 55 50 (by norm_num) (by norm_num) (by norm_num)⟩

/-! ### Numbers above the i32 maximum are parse failures -/

theorem isEmpty_false_of_data {s : String} (h : s.data ≠ []) :
    s.isEmpty = false := by
  cases hs : s.isEmpty
  · rfl
  · exfalso
    have hs2 : s = "" := (String.isEmpty_iff s).mp hs
    rw [hs2] at h
    exact h rfl

/-- C10.  A well-formed decimal numeral whose value exceeds `2 ^ 31 - 1`
(the `i32` maximum) is rejected at the parse step with the `NotANumber`
error ("Invalid number format!"), not the range error: the accepted range
is effectively `1 ..= 2 ^ 31 - 1`, whose top value is still accepted. -/
theorem claim_C10 :
    (∀ fn sn em s : String,
        fn.isEmpty = false → sn.isEmpty = false → em.isEmpty = false →
        s.data ≠ [] → (∀ c ∈ s.data, c.isDigit = true) →
        (2 ^ 31 - 1 : Int) < (digitsVal s.data : Int) →
        validate fn sn em s = .error .NotANumber) ∧
    (∀ db : List User,
      submit_registration db "Jo" "Doe" "a@b.com" "2147483648"
        = (db, .error .NotANumber)) ∧
    validate "Jo" "Doe" "a@b.com" "2147483647" = .ok (2 ^ 31 - 1) := by
  refine ⟨?_, fun db => rfl, by rfl⟩
  intro fn sn em s hfn hsn hem hne hdig hofl
  have hsempty : s.isEmpty = false := isEmpty_false_of_data hne
  have hparse : parseI32 s = none := by
    rcases hdata : s.data with _ | ⟨c, rest⟩
    · exact absurd hdata hne
    · have hcdig : c.isDigit = true :=
        hdig c (by rw [hdata]; exact List.mem_cons_self c rest)
      have hcm : c ≠ '-' := by
        intro e; rw [e] at hcdig; exact absurd hcdig (by decide)
      have hcp : c ≠ '+' := by
        intro e; rw [e] at hcdig; exact absurd hcdig (by decide)
      have halld : (c :: rest).all Char.isDigit = true := by
        rw [List.all_eq_true]
        intro x hx
        exact hdig x (by rw [hdata]; exact hx)
      unfold parseI32
      rw [hdata]
      rw [hdata] at hofl
      simp [hcm, hcp, halld]
      intro _
      omega
  unfold validate
  rw [hfn, hsn, hem, hsempty, hparse]
  simp

/-- Witness for C10: an eleven-digit numeral is rejected as `NotANumber`. -/
theorem claim_C10_witness :
    ("Jo" : String).isEmpty = false ∧
    ("99999999999" : String).data ≠ [] ∧
    (∀ c ∈ ("99999999999" : String).data, c.isDigit = true) ∧
    (2 ^ 31 - 1 : Int) < (digitsVal ("99999999999" : String).data : Int) ∧
    validate "Jo" "Doe" "a@b.com" "99999999999" = .error .NotANumber :=
  ⟨by decide, by decide, by decide, by decide,
   claim_C10.1 "Jo" "Doe" "a@b.com" "99999999999" (by decide) (by decide)
     (by decide) (by decide) (by decide) (by decide)⟩

/-! ### Export filenames: second-granularity timestamps -/

theorem toDigitsCore_append10 :
    ∀ (fuel n : Nat) (ds : List Char),
      Nat.toDigitsCore 10 fuel n ds = Nat.toDigitsCore 10 fuel n [] ++ ds := by
  intro fuel
  induction fuel with
  | zero => intro n ds; rfl
  | succ f ih =>
    intro n ds
    simp only [Nat.toDigitsCore]
    by_cases h : n / 10 = 0
    · rw [if_pos h, if_pos h]
      rfl
    · rw [if_neg h, if_neg h, ih (n / 10) (Nat.digitChar (n % 10) :: ds),
        ih (n / 10) (Nat.digitChar (n % 10) :: []), List.append_assoc]
      rfl

theorem toDigitsCore_fuel_irrel :
    ∀ (f1 f2 n : Nat), n < f1 → n < f2 →
      Nat.toDigitsCore 10 f1 n [] = Nat.toDigitsCore 10 f2 n [] := by
  intro f1
  induction f1 with
  | zero => intro f2 n h1 _; omega
  | succ f ih =>
    intro f2 n h1 h2
    cases f2 with
    | zero => omega
    | succ g =>
      simp only [Nat.toDigitsCore]
      by_cases h : n / 10 = 0
      · rw [if_pos h, if_pos h]
      · rw [if_neg h, if_neg h,
          toDigitsCore_append10 f (n / 10) (Nat.digitChar (n % 10) :: []),
          toDigitsCore_append10 g (n / 10) (Nat.digitChar (n % 10) :: [])]
        have hn0 : 0 < n := by
          rcases Nat.eq_zero_or_pos n with rfl | hp
          · simp at h
          · exact hp
        have hda : n / 10 < n := Nat.div_lt_self hn0 (by omega)
        rw [ih g (n / 10) (by omega) (by omega)]

theorem digitChar_val {d : Nat} (h : d < 10) : (Nat.digitChar d).toNat = d + 48 := by
  interval_cases d <;> decide

theorem digitsVal_append (l : List Char) (c : Char) :
    digitsVal (l ++ [c]) = 10 * digitsVal l + (c.toNat - 48) := by
  unfold digitsVal
  rw [List.foldl_append]
  rfl

/-- The decimal rendering used by `Nat.repr` is a left inverse of
`digitsVal`: the rendered string evaluates back to the number. -/
theorem digitsVal_toDigits : ∀ n : Nat, digitsVal (Nat.toDigits 10 n) = n := by
  intro n
  induction n using Nat.strong_induction_on with
  | _ n ih =>
    unfold Nat.toDigits
    simp only [Nat.toDigitsCore]
    by_cases h : n / 10 = 0
    · rw [if_pos h]
      have hlt : n < 10 := by omega
      have hsing : digitsVal [Nat.digitChar (n % 10)]
          = (Nat.digitChar (n % 10)).toNat - 48 := by
        unfold digitsVal
        simp
      rw [hsing, digitChar_val (Nat.mod_lt n (by omega))]
      omega
    · rw [if_neg h,
        toDigitsCore_append10 n (n / 10) (Nat.digitChar (n % 10) :: [])]
      have hn0 : 0 < n := by
        rcases Nat.eq_zero_or_pos n with rfl | hp
        · simp at h
        · exact hp
      have hda : n / 10 < n := Nat.div_lt_self hn0 (by omega)
      have hfuel : Nat.toDigitsCore 10 n (n / 10) []
          = Nat.toDigitsCore 10 (n / 10 + 1) (n / 10) [] :=
        toDigitsCore_fuel_irrel n (n / 10 + 1) (n / 10) (by omega) (by omega)
      rw [hfuel, digitsVal_append]
      have hihr : digitsVal (Nat.toDigits 10 (n / 10)) = n / 10 := ih (n / 10) hda
      unfold Nat.toDigits at hihr
      rw [hihr, digitChar_val (Nat.mod_lt n (by omega))]
      omega

theorem toDigits10_inj {m n : Nat}
    (h : Nat.toDigits 10 m = Nat.toDigits 10 n) : m = n := by
  rw [← digitsVal_toDigits m, ← digitsVal_toDigits n, h]

/-- C8 counterexample: the filename is a pure function of the wall-clock
second, so two successive exports that fall in the same second — exactly
the "rapid successive exports" case — produce the very same name. -/
theorem claim_C8_counterexample :
    export_filename 1700000000 = export_filename 1700000000 ∧
    export_filename 1700000000 = "registrations_1700000000.xlsx" :=
  ⟨rfl, rfl⟩

/-- C8 (amended).  Filenames collide exactly when the two exports read the
same second-granularity timestamp: exports in distinct seconds get
distinct names, while two exports within one second share the name. -/
theorem claim_C8 (ts1 ts2 : Nat) :
    export_filename ts1 = export_filename ts2 ↔ ts1 = ts2 := by
  constructor
  · intro h
    unfold export_filename at h
    have hdata := congrArg String.data h
    simp only [String.data_append] at hdata
    have hmid : (toString ts1).data = (toString ts2).data :=
      List.append_cancel_left (List.append_cancel_right hdata)
    exact toDigits10_inj hmid
  · intro h
    rw [h]

/-- Witness for C8: distinct seconds yield distinct filenames. -/
theorem claim_C8_witness :
    (export_filename 3 = export_filename 5 ↔ (3 : Nat) = 5) ∧
    export_filename 3 ≠ export_filename 5 :=
  ⟨claim_C8 3 5, fun h => absurd ((claim_C8 3 5).mp h) (by decide)⟩
